import Mathlib

/-!
Shallow embedding of the quote-image layout and compositing engine of
`src/app/page.tsx` (the final revision of `drawQuoteOnCanvas`, lines
1774-1996, together with its helper `normalizeWord`).

Strings are modelled as `List Char`.  Pixel quantities are modelled as
rationals.  The opaque `ctx.measureText` of the canvas API is modelled as an
explicit parameter `m : List Char → ℚ` (the measurement function for the
active font configuration); every theorem is stated for an arbitrary such
function, with explicit hypotheses where a claim needs the measure to be
monotone under concatenation.
-/

namespace QuoteGen

/-- JS `String.prototype.trim` strips leading whitespace: model of the
leading half, `dropWhile isWhitespace`. -/
def trimLeft (s : List Char) : List Char := s.dropWhile Char.isWhitespace

/-- JS `trim`, trailing half: drop trailing whitespace. -/
def trimRight (s : List Char) : List Char :=
  (s.reverse.dropWhile Char.isWhitespace).reverse

/-- JS `String.prototype.trim`: strip whitespace from both ends. -/
def trim (s : List Char) : List Char := trimLeft (trimRight s)

/-- JS `text.split(' ')`: split on every single space character, keeping
empty tokens (and `''.split(' ') = ['']`). -/
def splitOnSpace : List Char → List (List Char)
  | [] => [[]]
  | c :: s =>
    if c = ' ' then [] :: splitOnSpace s
    else
      match splitOnSpace s with
      | [] => [[c]]
      | t :: ts => (c :: t) :: ts

/-- Re-join the tokens of `splitOnSpace` with single spaces (inverse used in
proofs). -/
def joinSpace : List (List Char) → List Char
  | [] => []
  | [t] => t
  | t :: ts => t ++ ' ' :: joinSpace ts

/-- Whitespace-run tokenization: the model of JS
`line.split(/\s+/).filter(w => w.trim().length > 0)` (page.tsx line 1952):
the maximal whitespace-free non-empty runs of the string, in order. -/
def wordsOf : List Char → List (List Char)
  | [] => []
  | [c] => if c.isWhitespace then [] else [[c]]
  | c :: d :: s =>
    if c.isWhitespace then wordsOf (d :: s)
    else if d.isWhitespace then [c] :: wordsOf (d :: s)
    else
      match wordsOf (d :: s) with
      | w :: r => (c :: w) :: r
      | [] => [[c]]

/-- The greedy wrapping loop of `drawQuoteOnCanvas` (page.tsx lines
1882-1898): fold over the space-split tokens with the mutable
`currentLine` buffer made explicit.  For each word the tentative line
`currentLine + word + ' '` is measured; if it exceeds `maxW` while the
buffer is non-empty, the trimmed buffer is committed and the buffer
restarts with `word + ' '`; otherwise the tentative line becomes the
buffer.  A final non-empty buffer is committed trimmed. -/
def wrapWords (m : List Char → ℚ) (maxW : ℚ) : List (List Char) → List Char → List (List Char)
  | [], buf => if buf = [] then [] else [trim buf]
  | w :: ws, buf =>
    if maxW < m (buf ++ w ++ [' ']) ∧ buf ≠ [] then
      trim buf :: wrapWords m maxW ws (w ++ [' '])
    else
      wrapWords m maxW ws (buf ++ w ++ [' '])

/-- The line layout of `drawQuoteOnCanvas` (page.tsx lines 1867, 1870,
1882-1898): uppercase the quote text, split on single spaces, greedily wrap
under the fixed 900px budget. -/
def layoutLines (m : List Char → ℚ) (text : List Char) : List (List Char) :=
  wrapWords m 900 (splitOnSpace (text.map Char.toUpper)) []

/-- JS `\w`: ASCII letter, digit or underscore (page.tsx line 1780). -/
def isWordChar (c : Char) : Bool := c.isAlpha || c.isDigit || c == '_'

/-- `normalizeWord` (page.tsx lines 1775-1782): trim, strip every character
that is not a letter/digit/underscore, uppercase the remainder. -/
def normalizeWord (w : List Char) : List Char :=
  ((trim w).filter isWordChar).map Char.toUpper

/-- `'top' | 'bottom'` of the `GeneratedQuote` interface. -/
inductive TextPosition
  | top
  | bottom
deriving DecidableEq

/-- An rgba color as written in the gradient stops: byte components plus a
rational alpha. -/
structure Rgba where
  r : ℕ
  g : ℕ
  b : ℕ
  a : ℚ
deriving DecidableEq

/-- `rgba(0, 0, 0, 0)`. -/
def transparentBlack : Rgba := ⟨0, 0, 0, 0⟩

/-- `rgba(0, 0, 0, 0.85)`. -/
def darkBlack : Rgba := ⟨0, 0, 0, 17 / 20⟩

/-- One `addColorStop` call: an offset along the gradient and its color. -/
structure GradientStop where
  offset : ℚ
  color : Rgba
deriving DecidableEq

/-- `quote.gradientStart !== undefined ? quote.gradientStart : 0.5`
(page.tsx line 1846). -/
def resolveGradientStart (o : Option ℚ) : ℚ := o.getD (1 / 2)

/-- The three `addColorStop` calls of page.tsx lines 1849-1859, in call
order, for each text position. -/
def gradientStops (pos : TextPosition) (gs : ℚ) : List GradientStop :=
  match pos with
  | .top => [⟨0, darkBlack⟩, ⟨gs, transparentBlack⟩, ⟨1, transparentBlack⟩]
  | .bottom => [⟨0, transparentBlack⟩, ⟨gs, transparentBlack⟩, ⟨1, darkBlack⟩]

/-- The destination rectangle for the background image in the fallback
(no smart-crop) path: draw size and centering offsets on the canvas. -/
structure CoverRect where
  drawWidth : ℚ
  drawHeight : ℚ
  offsetX : ℚ
  offsetY : ℚ
deriving DecidableEq

/-- The fallback center/cover crop of page.tsx lines 1806-1841: the
aspect-ratio branch followed by the two `ensure minimum size` guard
blocks, in the source's order. -/
def fallbackCrop (imgW imgH : ℚ) : CoverRect :=
  let imgAspect := imgW / imgH
  let canvasAspect := (1080 : ℚ) / 1350
  let r0 : CoverRect :=
    if canvasAspect < imgAspect then
      { drawWidth := 1350 * imgAspect, drawHeight := 1350
        offsetX := (1080 - 1350 * imgAspect) / 2, offsetY := 0 }
    else
      { drawWidth := 1080, drawHeight := 1080 / imgAspect
        offsetX := 0, offsetY := (1350 - 1080 / imgAspect) / 2 }
  let r1 : CoverRect :=
    if r0.drawWidth < 1080 then
      { drawWidth := 1080, drawHeight := 1080 / imgAspect
        offsetX := 0, offsetY := (1350 - 1080 / imgAspect) / 2 }
    else r0
  if r1.drawHeight < 1350 then
    { drawWidth := 1350 * imgAspect, drawHeight := 1350
      offsetX := (1080 - 1350 * imgAspect) / 2, offsetY := 0 }
  else r1

/-- The fallback cover crop with both `ensure minimum size` guard blocks
removed: only the aspect-ratio branch of page.tsx lines 1813-1825. -/
def fallbackCropNoGuards (imgW imgH : ℚ) : CoverRect :=
  let imgAspect := imgW / imgH
  let canvasAspect := (1080 : ℚ) / 1350
  if canvasAspect < imgAspect then
    { drawWidth := 1350 * imgAspect, drawHeight := 1350
      offsetX := (1080 - 1350 * imgAspect) / 2, offsetY := 0 }
  else
    { drawWidth := 1080, drawHeight := 1080 / imgAspect
      offsetX := 0, offsetY := (1350 - 1080 / imgAspect) / 2 }

/-- The `cropData` rectangle of the `GeneratedQuote` interface. -/
structure CropData where
  x : ℚ
  y : ℚ
  width : ℚ
  height : ℚ
deriving DecidableEq

/-- The pixel dimensions of the decoded background image. -/
structure ImageDims where
  width : ℚ
  height : ℚ
deriving DecidableEq

/-- The fields of the `GeneratedQuote` interface that `drawQuoteOnCanvas`
reads (the `id` and `imageUrl` strings are never used for drawing). -/
structure Quote where
  text : List Char
  highlightedWord : List Char
  image : ImageDims
  textPosition : TextPosition
  fontSize : Option ℚ
  gradientStart : Option ℚ
  cropData : Option CropData
deriving DecidableEq

/-- The global style state read by `drawQuoteOnCanvas`: `artistName`,
`highlightColor`, `selectedFont` and the global `fontSize`. -/
structure Settings where
  artistName : List Char
  highlightColor : List Char
  selectedFont : List Char
  fontSize : ℚ
deriving DecidableEq

/-- JS `quote.fontSize || fontSize` (page.tsx line 1864): an absent value
falls back, and so does `0`, the only falsy number our model can hold. -/
def jsOrElse (o : Option ℚ) (d : ℚ) : ℚ :=
  match o with
  | some v => if v = 0 then d else v
  | none => d

/-- The per-quote effective font size (page.tsx line 1864). -/
def effectiveFontSize (g : Settings) (q : Quote) : ℚ :=
  jsOrElse q.fontSize g.fontSize

/-- The `FONT_OPTIONS` catalog as (value, family) pairs (page.tsx lines
1457-1469). -/
def FONT_OPTIONS : List (List Char × List Char) :=
  [("Montserrat".toList, "\"Montserrat\", sans-serif".toList),
   ("Playfair Display".toList, "\"Playfair Display\", serif".toList),
   ("Oswald".toList, "\"Oswald\", sans-serif".toList),
   ("Raleway".toList, "\"Raleway\", sans-serif".toList),
   ("Bebas Neue".toList, "\"Bebas Neue\", sans-serif".toList),
   ("Poppins".toList, "\"Poppins\", sans-serif".toList),
   ("Lato".toList, "\"Lato\", sans-serif".toList),
   ("Roboto".toList, "\"Roboto\", sans-serif".toList),
   ("Inter".toList, "\"Inter\", sans-serif".toList),
   ("Barlow".toList, "\"Barlow\", sans-serif".toList),
   ("Arial".toList, "Arial, sans-serif".toList)]

/-- `FONT_OPTIONS.find(f => f.value === selectedFont)` with the
`'Arial, sans-serif'` fallback (page.tsx lines 1874-1875). -/
def resolveFontFamily (sel : List Char) : List Char :=
  ((FONT_OPTIONS.find? fun p => p.1 == sel).map Prod.snd).getD
    "Arial, sans-serif".toList

/-- The normalized configured highlight word (page.tsx lines 1941-1943):
empty when the setting is empty, else `normalizeWord` of its trim. -/
def normalizedHighlight (hl : List Char) : List Char :=
  if hl = [] then [] else normalizeWord (trim hl)

/-- The per-word highlight decision of page.tsx lines 1968-1971. -/
def highlightDecision (hl word : List Char) : Bool :=
  let nh := normalizedHighlight hl
  let nw := normalizeWord word
  !nh.isEmpty && !nw.isEmpty && nw == nh

/-- `'#ffffff'`, the non-highlight word color. -/
def whiteColor : List Char := "#ffffff".toList

/-- One `fillText` call for a word of a line: the word, whether it matched
the highlight, the fill color it gets, and its draw position. -/
structure WordDraw where
  word : List Char
  highlighted : Bool
  color : List Char
  x : ℚ
  y : ℚ
deriving DecidableEq

/-- The inner `lineWords.forEach` of page.tsx lines 1959-1985: draw each
word at the advancing cursor, colored by the highlight decision. -/
def wordDrawsAux (m : List Char → ℚ) (hl hlColor : List Char) (y : ℚ) :
    List (List Char) → ℚ → List WordDraw
  | [], _ => []
  | w :: ws, x =>
    ⟨w, highlightDecision hl w,
      if highlightDecision hl w then hlColor else whiteColor, x, y⟩ ::
      wordDrawsAux m hl hlColor y ws (x + m w + m [' '])

/-- The word draws of one line (page.tsx lines 1950-1985): the line is
re-split on whitespace runs, its left edge is the centered position
`540 - width/2`, and words advance by word width plus one space width. -/
def lineDraws (m : List Char → ℚ) (hl hlColor : List Char)
    (line : List Char) (y : ℚ) : List WordDraw :=
  wordDrawsAux m hl hlColor y (wordsOf line) (540 - m line / 2)

/-- How the background image is drawn: smart-crop passthrough (page.tsx
lines 1793-1805) or the computed cover rectangle (lines 1806-1841). -/
inductive BackgroundDraw
  | smartCrop (c : CropData)
  | cover (r : CoverRect)
deriving DecidableEq

/-- The artist-name caption draw (page.tsx lines 1988-1995). -/
structure CaptionDraw where
  text : List Char
  x : ℚ
  y : ℚ
deriving DecidableEq

/-- Everything `drawQuoteOnCanvas` decides before touching pixels: the
background rectangle, gradient stops, resolved font family, wrapped lines,
vertical layout, the optional opening quote mark position, the per-word
draws, and the caption. -/
structure RenderPlan where
  background : BackgroundDraw
  gradient : List GradientStop
  fontFamily : List Char
  lines : List (List Char)
  lineHeight : ℚ
  startY : ℚ
  lineYs : List ℚ
  quoteMark : Option (ℚ × ℚ)
  wordDraws : List WordDraw
  caption : CaptionDraw
deriving DecidableEq

/-- The opening typographic quote mark `U+201C`. -/
def openingQuote : List Char := [Char.ofNat 0x201C]

/-- The draw plan of `drawQuoteOnCanvas` (page.tsx lines 1784-1996) on a
1080x1350 canvas, with `ctx.measureText` abstracted as `m`. -/
def renderPlan (g : Settings) (q : Quote) (m : List Char → ℚ) : RenderPlan :=
  let background : BackgroundDraw :=
    match q.cropData with
    | some c => .smartCrop c
    | none => .cover (fallbackCrop q.image.width q.image.height)
  let stops := gradientStops q.textPosition (resolveGradientStart q.gradientStart)
  let fs := effectiveFontSize g q
  let lh := fs * (13 / 10)
  let lines := layoutLines m q.text
  let startY : ℚ :=
    match q.textPosition with
    | .top => 200 + lh / 2
    | .bottom => 1350 - 200 - (lines.length : ℚ) * lh
  let lineYs := (List.range lines.length).map fun (i : ℕ) => startY + (i : ℚ) * lh
  let quoteMark : Option (ℚ × ℚ) :=
    match lines with
    | [] => none
    | l0 :: _ => some (540 - m l0 / 2 - 16 - m openingQuote, startY)
  let draws :=
    (lines.enum.map fun p =>
      lineDraws m q.highlightedWord g.highlightColor p.2
        (startY + (p.1 : ℚ) * lh)).flatten
  { background := background
    gradient := stops
    fontFamily := resolveFontFamily g.selectedFont
    lines := lines
    lineHeight := lh
    startY := startY
    lineYs := lineYs
    quoteMark := quoteMark
    wordDraws := draws
    caption := ⟨g.artistName.map Char.toUpper, 540, 1350 - 100⟩ }

/-- The loop invariant shape of the `currentLine` buffer: empty, or ending
in the trailing space the loop always appends. -/
def NiceBuf (buf : List Char) : Prop := buf = [] ∨ ∃ b, buf = b ++ [' ']

/-- The apostrophe character, `U+0027`. -/
def apos : Char := Char.ofNat 39

/-- A concrete measurement function for witnesses: every character 30px
wide (the spec's own example font). -/
def mThirty : List Char → ℚ := fun s => 30 * s.length

/-- Concrete global settings for witnesses. -/
def gConc : Settings :=
  ⟨"John Doe".toList, "#FF8C00".toList, "Oswald".toList, 70⟩

/-- A concrete quote request for witnesses. -/
def qConc : Quote :=
  ⟨"the only way out is through".toList, "through".toList,
    ⟨2000, 1000⟩, .bottom, none, none, none⟩

/-- A concrete top-positioned quote request for witnesses. -/
def qTopConc : Quote :=
  ⟨"hello world".toList, [], ⟨800, 1200⟩, .top, some 80, some (3 / 10), none⟩

/-- A concrete quote request with empty text for witnesses. -/
def qEmptyConc : Quote :=
  ⟨[], [], ⟨1000, 1000⟩, .bottom, none, none, none⟩

/-! ## Lemmas about whitespace-run tokenization -/

theorem wordsOf_ws_cons {c : Char} (h : c.isWhitespace = true) (s : List Char) :
    wordsOf (c :: s) = wordsOf s := by
  cases s with
  | nil => simp [wordsOf, h]
  | cons d s => simp [wordsOf, h]

theorem wordsOf_cons_shape {c : Char} (h : c.isWhitespace = false) (s : List Char) :
    ∃ w r, wordsOf (c :: s) = (c :: w) :: r := by
  induction s generalizing c with
  | nil => exact ⟨[], [], by simp [wordsOf, h]⟩
  | cons d s ih =>
    by_cases hd : d.isWhitespace = true
    · exact ⟨[], wordsOf (d :: s), by simp [wordsOf, h, hd]⟩
    · obtain ⟨w, r, hw⟩ := ih (c := d) (by simpa using hd)
      exact ⟨d :: w, r, by simp [wordsOf, h, hd, hw]⟩

theorem wordsOf_append_ws {x : Char} (hx : x.isWhitespace = true) :
    ∀ (a b : List Char), wordsOf (a ++ x :: b) = wordsOf a ++ wordsOf b := by
  intro a
  induction a with
  | nil => intro b; simp [wordsOf_ws_cons hx, wordsOf]
  | cons c a ih =>
    intro b
    by_cases hc : c.isWhitespace = true
    · simp [wordsOf_ws_cons hc, ih b]
    · replace hc : c.isWhitespace = false := by simpa using hc
      cases a with
      | nil => simp [wordsOf, hx, hc, wordsOf_ws_cons hx]
      | cons d a' =>
        by_cases hd : d.isWhitespace = true
        · have := ih b
          simp only [List.cons_append] at this ⊢
          simp [wordsOf, hc, hd, this]
        · replace hd : d.isWhitespace = false := by simpa using hd
          obtain ⟨w, r, hw⟩ := wordsOf_cons_shape hd (a' ++ x :: b)
          obtain ⟨w', r', hw'⟩ := wordsOf_cons_shape hd a'
          have hrec := ih b
          simp only [List.cons_append] at hrec
          rw [hw, hw'] at hrec
          simp only [List.cons_append]
          rw [show wordsOf (c :: d :: (a' ++ x :: b)) = (c :: d :: w) :: r by
                simp [wordsOf, hc, hd, hw],
              show wordsOf (c :: d :: a') = (c :: d :: w') :: r' by
                simp [wordsOf, hc, hd, hw']]
          simp only [List.cons_append] at hrec ⊢
          rw [List.cons_eq_cons] at hrec
          obtain ⟨h1, h2⟩ := hrec
          simp_all

theorem wordsOf_all_ws {t : List Char} (h : ∀ c ∈ t, c.isWhitespace = true) :
    wordsOf t = [] := by
  induction t with
  | nil => rfl
  | cons c t ih =>
    rw [wordsOf_ws_cons (h c (List.mem_cons_self c t))]
    exact ih fun x hx => h x (List.mem_cons_of_mem c hx)

theorem wordsOf_append_all_ws {s t : List Char}
    (h : ∀ c ∈ t, c.isWhitespace = true) : wordsOf (s ++ t) = wordsOf s := by
  induction t generalizing s with
  | nil => simp
  | cons x t ih =>
    calc wordsOf (s ++ x :: t) = wordsOf s ++ wordsOf t :=
          wordsOf_append_ws (h x (List.mem_cons_self x t)) s t
      _ = wordsOf s ++ [] := by
          rw [wordsOf_all_ws fun c hc => h c (List.mem_cons_of_mem x hc)]
      _ = wordsOf s := by simp

theorem wordsOf_trimLeft (s : List Char) : wordsOf (trimLeft s) = wordsOf s := by
  unfold trimLeft
  induction s with
  | nil => rfl
  | cons c s ih =>
    by_cases hc : c.isWhitespace = true
    · rw [List.dropWhile_cons_of_pos hc, ih, wordsOf_ws_cons hc]
    · rw [List.dropWhile_cons_of_neg (by simpa using hc)]

theorem trimRight_decomp (s : List Char) :
    trimRight s ++ (s.reverse.takeWhile Char.isWhitespace).reverse = s := by
  unfold trimRight
  rw [← List.reverse_append, List.takeWhile_append_dropWhile, List.reverse_reverse]

theorem mem_trimRight_rest {s : List Char} {c : Char}
    (h : c ∈ (s.reverse.takeWhile Char.isWhitespace).reverse) :
    c.isWhitespace = true := by
  rw [List.mem_reverse] at h
  exact List.mem_takeWhile_imp h

theorem wordsOf_trimRight (s : List Char) : wordsOf (trimRight s) = wordsOf s := by
  conv_rhs => rw [← trimRight_decomp s]
  rw [wordsOf_append_all_ws fun c hc => mem_trimRight_rest hc]

theorem wordsOf_trim (s : List Char) : wordsOf (trim s) = wordsOf s := by
  rw [trim, wordsOf_trimLeft, wordsOf_trimRight]

theorem space_isWhitespace : (' ' : Char).isWhitespace = true := by decide

theorem wordsOf_append_space (s : List Char) :
    wordsOf (s ++ [' ']) = wordsOf s := by
  exact wordsOf_append_all_ws (by simp [space_isWhitespace])

/-! ## Lemmas about space splitting -/

theorem splitOnSpace_ne_nil (s : List Char) : splitOnSpace s ≠ [] := by
  cases s with
  | nil => simp [splitOnSpace]
  | cons c s =>
    by_cases hc : c = ' '
    · simp [splitOnSpace, hc]
    · simp only [splitOnSpace, if_neg hc]
      cases splitOnSpace s <;> simp

theorem joinSpace_splitOnSpace (s : List Char) :
    joinSpace (splitOnSpace s) = s := by
  induction s with
  | nil => rfl
  | cons c s ih =>
    by_cases hc : c = ' '
    · subst hc
      simp only [splitOnSpace, if_pos rfl]
      obtain ⟨t, ts, ht⟩ : ∃ t ts, splitOnSpace s = t :: ts := by
        cases h : splitOnSpace s with
        | nil => exact absurd h (splitOnSpace_ne_nil s)
        | cons t ts => exact ⟨t, ts, rfl⟩
      rw [ht] at ih ⊢
      simp [joinSpace, ih]
    · simp only [splitOnSpace, if_neg hc]
      obtain ⟨t, ts, ht⟩ : ∃ t ts, splitOnSpace s = t :: ts := by
        cases h : splitOnSpace s with
        | nil => exact absurd h (splitOnSpace_ne_nil s)
        | cons t ts => exact ⟨t, ts, rfl⟩
      rw [ht] at ih ⊢
      cases ts with
      | nil => simpa [joinSpace] using congrArg (c :: ·) ih
      | cons t' ts' => simpa [joinSpace] using congrArg (c :: ·) ih

theorem wordsOf_joinSpace (parts : List (List Char)) :
    wordsOf (joinSpace parts) = (parts.map wordsOf).flatten := by
  induction parts with
  | nil => rfl
  | cons t ts ih =>
    cases ts with
    | nil => simp [joinSpace]
    | cons t' ts' =>
      rw [show joinSpace (t :: t' :: ts') = t ++ ' ' :: joinSpace (t' :: ts') from rfl,
        wordsOf_append_ws space_isWhitespace, ih]
      simp

theorem flatten_wordsOf_splitOnSpace (s : List Char) :
    ((splitOnSpace s).map wordsOf).flatten = wordsOf s := by
  rw [← wordsOf_joinSpace, joinSpace_splitOnSpace]

theorem splitOnSpace_no_space {u : List Char} (h : (' ' : Char) ∉ u) :
    splitOnSpace u = [u] := by
  induction u with
  | nil => rfl
  | cons c u ih =>
    have hc : c ≠ ' ' := fun he => h (he ▸ List.mem_cons_self c u)
    rw [show splitOnSpace (c :: u) =
        (match splitOnSpace u with
          | [] => [[c]]
          | t :: ts => (c :: t) :: ts) by simp [splitOnSpace, hc]]
    rw [ih fun hm => h (List.mem_cons_of_mem c hm)]

/-! ## Lemmas about trimming -/

theorem dropWhile_of_all_neg {p : Char → Bool} {l : List Char}
    (h : ∀ c ∈ l, p c = false) : l.dropWhile p = l := by
  cases l with
  | nil => rfl
  | cons c l => rw [List.dropWhile_cons_of_neg]; simp [h c (List.mem_cons_self c l)]

theorem trim_append_space (s : List Char) : trim (s ++ [' ']) = trim s := by
  unfold trim trimRight
  rw [List.reverse_append, List.reverse_singleton]
  simp [List.dropWhile_cons_of_pos, space_isWhitespace]

theorem trim_of_clean {w : List Char} (h : ∀ c ∈ w, c.isWhitespace = false) :
    trim w = w := by
  unfold trim trimLeft trimRight
  rw [dropWhile_of_all_neg fun c hc => h c (List.mem_reverse.mp hc),
    List.reverse_reverse, dropWhile_of_all_neg h]

theorem trim_clean_append_space {w : List Char}
    (h : ∀ c ∈ w, c.isWhitespace = false) : trim (w ++ [' ']) = w := by
  rw [trim_append_space, trim_of_clean h]

/-! ## The greedy wrap: word preservation -/

theorem niceBuf_nil : NiceBuf [] := Or.inl rfl

theorem niceBuf_append_space (b : List Char) : NiceBuf (b ++ [' ']) :=
  Or.inr ⟨b, rfl⟩

theorem wordsOf_nil : wordsOf [] = [] := rfl

theorem wordsOf_nice_append {buf x : List Char} (h : NiceBuf buf) :
    wordsOf (buf ++ x) = wordsOf buf ++ wordsOf x := by
  cases h with
  | inl h => simp [h, wordsOf_nil]
  | inr h =>
    obtain ⟨b, rfl⟩ := h
    rw [List.append_assoc, List.singleton_append, wordsOf_append_ws space_isWhitespace,
      wordsOf_append_space]

theorem wrapWords_words (m : List Char → ℚ) (maxW : ℚ) :
    ∀ (ws : List (List Char)) (buf : List Char), NiceBuf buf →
      ((wrapWords m maxW ws buf).map wordsOf).flatten =
        wordsOf buf ++ (ws.map wordsOf).flatten := by
  intro ws
  induction ws with
  | nil =>
    intro buf hbuf
    by_cases hb : buf = []
    · simp [wrapWords, hb, wordsOf_nil]
    · simp [wrapWords, hb, wordsOf_trim]
  | cons w ws ih =>
    intro buf hbuf
    by_cases hcond : maxW < m (buf ++ w ++ [' ']) ∧ buf ≠ []
    · rw [show wrapWords m maxW (w :: ws) buf =
          trim buf :: wrapWords m maxW ws (w ++ [' ']) by
            rw [wrapWords, if_pos hcond]]
      rw [List.map_cons, List.flatten_cons, ih (w ++ [' ']) (niceBuf_append_space w),
        wordsOf_trim, wordsOf_append_space]
      simp
    · rw [show wrapWords m maxW (w :: ws) buf =
          wrapWords m maxW ws (buf ++ w ++ [' ']) by
            simp only [wrapWords, if_neg hcond]]
      rw [List.append_assoc buf w [' ']]
      rw [ih (buf ++ (w ++ [' '])) (by
        rw [← List.append_assoc]; exact niceBuf_append_space (buf ++ w))]
      rw [wordsOf_nice_append hbuf, wordsOf_append_space]
      simp

theorem layoutLines_words (m : List Char → ℚ) (text : List Char) :
    ((layoutLines m text).map wordsOf).flatten = wordsOf (text.map Char.toUpper) := by
  rw [layoutLines, wrapWords_words m 900 _ [] niceBuf_nil,
    flatten_wordsOf_splitOnSpace]
  rfl

theorem layoutLines_single_word (m : List Char → ℚ) (text : List Char)
    (h : (' ' : Char) ∉ text.map Char.toUpper) :
    layoutLines m text = [trim (text.map Char.toUpper)] := by
  rw [layoutLines, splitOnSpace_no_space h]
  rw [show wrapWords m 900 [text.map Char.toUpper] [] =
      wrapWords m 900 [] ([] ++ text.map Char.toUpper ++ [' ']) by
        simp [wrapWords]]
  rw [show ([] : List Char) ++ text.map Char.toUpper ++ [' '] =
      text.map Char.toUpper ++ [' '] by simp]
  rw [show wrapWords m 900 [] (text.map Char.toUpper ++ [' ']) =
      [trim (text.map Char.toUpper ++ [' '])] by
        simp [wrapWords]]
  rw [trim_append_space]

/-! ## The greedy wrap: an overlong word is emitted as its own line -/

theorem measure_ge_mid {m : List Char → ℚ}
    (hm₁ : ∀ s t, m s ≤ m (s ++ t)) (hm₂ : ∀ s t, m t ≤ m (s ++ t))
    (a b c : List Char) : m b ≤ m (a ++ b ++ c) := by
  calc m b ≤ m (b ++ c) := hm₁ b c
    _ ≤ m (a ++ (b ++ c)) := hm₂ a (b ++ c)
    _ = m (a ++ b ++ c) := by rw [List.append_assoc]

theorem wrapWords_buffer_overlong {m : List Char → ℚ} {maxW : ℚ}
    (hm₁ : ∀ s t, m s ≤ m (s ++ t))
    {w : List Char} (hw : maxW < m w)
    (hclean : ∀ c ∈ w, c.isWhitespace = false) :
    ∀ ts : List (List Char), w ∈ wrapWords m maxW ts (w ++ [' ']) := by
  intro ts
  cases ts with
  | nil =>
    rw [show wrapWords m maxW [] (w ++ [' ']) = [trim (w ++ [' '])] by
      rw [wrapWords, if_neg (by simp)]]
    rw [trim_clean_append_space hclean]
    exact List.mem_singleton_self w
  | cons v ts =>
    have hcond : maxW < m (w ++ [' '] ++ v ++ [' ']) ∧ w ++ [' '] ≠ [] := by
      refine ⟨lt_of_lt_of_le hw ?_, by simp⟩
      calc m w ≤ m (w ++ ([' '] ++ v ++ [' '])) := hm₁ w _
        _ = m (w ++ [' '] ++ v ++ [' ']) := by simp [List.append_assoc]
    rw [show wrapWords m maxW (v :: ts) (w ++ [' ']) =
        trim (w ++ [' ']) :: wrapWords m maxW ts (v ++ [' ']) by
          rw [wrapWords, if_pos hcond]]
    rw [trim_clean_append_space hclean]
    exact List.mem_cons_self w _

theorem wrapWords_mem_overlong {m : List Char → ℚ} {maxW : ℚ}
    (hm₁ : ∀ s t, m s ≤ m (s ++ t)) (hm₂ : ∀ s t, m t ≤ m (s ++ t))
    {w : List Char} (hw : maxW < m w)
    (hclean : ∀ c ∈ w, c.isWhitespace = false) :
    ∀ (ts : List (List Char)) (buf : List Char), w ∈ ts →
      w ∈ wrapWords m maxW ts buf := by
  intro ts
  induction ts with
  | nil => intro buf h; exact absurd h (List.not_mem_nil w)
  | cons v ts ih =>
    intro buf h
    rcases List.mem_cons.mp h with hv | hts
    · subst hv
      by_cases hb : buf = []
      · subst hb
        rw [show wrapWords m maxW (w :: ts) [] =
            wrapWords m maxW ts ([] ++ w ++ [' ']) by
              rw [wrapWords, if_neg (by simp)]]
        rw [List.nil_append]
        exact wrapWords_buffer_overlong hm₁ hw hclean ts
      · have hcond : maxW < m (buf ++ w ++ [' ']) ∧ buf ≠ [] :=
          ⟨lt_of_lt_of_le hw (measure_ge_mid hm₁ hm₂ buf w [' ']), hb⟩
        rw [show wrapWords m maxW (w :: ts) buf =
            trim buf :: wrapWords m maxW ts (w ++ [' ']) by
              rw [wrapWords, if_pos hcond]]
        exact List.mem_cons_of_mem _ (wrapWords_buffer_overlong hm₁ hw hclean ts)
    · by_cases hcond : maxW < m (buf ++ v ++ [' ']) ∧ buf ≠ []
      · rw [show wrapWords m maxW (v :: ts) buf =
            trim buf :: wrapWords m maxW ts (v ++ [' ']) by
              rw [wrapWords, if_pos hcond]]
        exact List.mem_cons_of_mem _ (ih (v ++ [' ']) hts)
      · rw [show wrapWords m maxW (v :: ts) buf =
            wrapWords m maxW ts (buf ++ v ++ [' ']) by
              rw [wrapWords, if_neg hcond]]
        exact ih (buf ++ v ++ [' ']) hts

/-! ## Normalization lemmas -/

theorem isWordChar_of_ws {c : Char} (h : c.isWhitespace = true) :
    isWordChar c = false := by
  simp only [Char.isWhitespace, Bool.or_eq_true, decide_eq_true_eq] at h
  rcases h with ((h | h) | h) | h <;> subst h <;> decide

theorem filter_dropWhile_ws (l : List Char) :
    (l.dropWhile Char.isWhitespace).filter isWordChar = l.filter isWordChar := by
  induction l with
  | nil => rfl
  | cons c l ih =>
    by_cases hc : c.isWhitespace = true
    · rw [List.dropWhile_cons_of_pos hc, ih,
        List.filter_cons_of_neg (by simp [isWordChar_of_ws hc])]
    · rw [List.dropWhile_cons_of_neg (by simpa using hc)]

theorem filter_all_ws_nil {t : List Char} (h : ∀ c ∈ t, c.isWhitespace = true) :
    t.filter isWordChar = [] := by
  induction t with
  | nil => rfl
  | cons c t ih =>
    rw [List.filter_cons_of_neg
        (by simp [isWordChar_of_ws (h c (List.mem_cons_self c t))])]
    exact ih fun x hx => h x (List.mem_cons_of_mem c hx)

theorem filter_trim (s : List Char) :
    (trim s).filter isWordChar = s.filter isWordChar := by
  rw [trim, trimLeft, filter_dropWhile_ws]
  conv_rhs => rw [← trimRight_decomp s]
  rw [List.filter_append, filter_all_ws_nil fun c hc => mem_trimRight_rest hc,
    List.append_nil]

theorem normalizeWord_trim (s : List Char) :
    normalizeWord (trim s) = normalizeWord s := by
  unfold normalizeWord
  rw [filter_trim, filter_trim]

theorem normalizeWord_filter (s : List Char) :
    normalizeWord s = (s.filter isWordChar).map Char.toUpper := by
  unfold normalizeWord
  rw [filter_trim]

theorem normalizedHighlight_eq (hl : List Char) :
    normalizedHighlight hl = normalizeWord hl := by
  unfold normalizedHighlight
  by_cases h : hl = []
  · simp [h, normalizeWord, trim, trimLeft, trimRight]
  · rw [if_neg h, normalizeWord_trim]

theorem normalizeWord_all_ws {s : List Char}
    (h : ∀ c ∈ s, c.isWhitespace = true) : normalizeWord s = [] := by
  rw [normalizeWord_filter, filter_all_ws_nil h]
  rfl

theorem highlightDecision_iff (hl w : List Char) :
    highlightDecision hl w = true ↔
      normalizeWord w ≠ [] ∧ normalizeWord hl ≠ [] ∧
        normalizeWord w = normalizeWord hl := by
  unfold highlightDecision
  rw [normalizedHighlight_eq]
  rcases hnh : normalizeWord hl with _ | ⟨c, t⟩ <;>
    rcases hnw : normalizeWord w with _ | ⟨c', t'⟩ <;>
      simp [hnh, hnw, and_comm]

theorem wordDrawsAux_colors (m : List Char → ℚ) (hl hlColor : List Char)
    (y : ℚ) : ∀ (ws : List (List Char)) (x : ℚ),
      ∀ d ∈ wordDrawsAux m hl hlColor y ws x,
        d.highlighted = highlightDecision hl d.word ∧
          d.color = (if d.highlighted then hlColor else whiteColor) := by
  intro ws
  induction ws with
  | nil => intro x d hd; exact absurd hd (List.not_mem_nil d)
  | cons w ws ih =>
    intro x d hd
    rcases List.mem_cons.mp hd with h | h
    · subst h; exact ⟨rfl, rfl⟩
    · exact ih _ d h

/-! ## Cover-crop geometry -/

theorem canvasAspect_eq : (1080 : ℚ) / 1350 = 4 / 5 := by norm_num

theorem fallbackCrop_eq_noGuards (w h : ℚ) (hw : 0 < w) (hh : 0 < h) :
    fallbackCrop w h = fallbackCropNoGuards w h := by
  have ha0 : 0 < w / h := div_pos hw hh
  unfold fallbackCrop fallbackCropNoGuards
  by_cases hbr : (1080 : ℚ) / 1350 < w / h
  · have h1 : ¬(1350 * (w / h) < 1080) := by
      rw [canvasAspect_eq] at hbr
      push_neg
      calc (1080 : ℚ) = 1350 * (4 / 5) := by norm_num
        _ ≤ 1350 * (w / h) := by
            apply mul_le_mul_of_nonneg_left (le_of_lt hbr) (by norm_num)
    simp only [if_pos hbr, if_neg h1]
    norm_num
  · have h2 : ¬((1080 : ℚ) / (w / h) < 1350) := by
      rw [canvasAspect_eq] at hbr
      push_neg at hbr ⊢
      rw [le_div_iff₀ ha0]
      calc (1350 : ℚ) * (w / h) ≤ 1350 * (4 / 5) := by
            apply mul_le_mul_of_nonneg_left hbr (by norm_num)
        _ = 1080 := by norm_num
    simp only [if_neg hbr]
    norm_num [h2]

theorem fallbackCropNoGuards_bounds (w h : ℚ) (hw : 0 < w) (hh : 0 < h) :
    1080 ≤ (fallbackCropNoGuards w h).drawWidth ∧
      1350 ≤ (fallbackCropNoGuards w h).drawHeight ∧
      (fallbackCropNoGuards w h).offsetX ≤ 0 ∧
      (fallbackCropNoGuards w h).offsetY ≤ 0 := by
  have ha0 : 0 < w / h := div_pos hw hh
  unfold fallbackCropNoGuards
  by_cases hbr : (1080 : ℚ) / 1350 < w / h
  · have h1 : (1080 : ℚ) ≤ 1350 * (w / h) := by
      rw [canvasAspect_eq] at hbr
      calc (1080 : ℚ) = 1350 * (4 / 5) := by norm_num
        _ ≤ 1350 * (w / h) := by
            apply mul_le_mul_of_nonneg_left (le_of_lt hbr) (by norm_num)
    simp only [if_pos hbr]
    refine ⟨h1, le_refl _, ?_, le_refl 0⟩
    apply div_nonpos_of_nonpos_of_nonneg _ (by norm_num)
    linarith
  · have h2 : (1350 : ℚ) ≤ 1080 / (w / h) := by
      rw [canvasAspect_eq] at hbr
      push_neg at hbr
      rw [le_div_iff₀ ha0]
      calc (1350 : ℚ) * (w / h) ≤ 1350 * (4 / 5) := by
            apply mul_le_mul_of_nonneg_left hbr (by norm_num)
        _ = 1080 := by norm_num
    simp only [if_neg hbr]
    refine ⟨le_refl _, h2, le_refl 0, ?_⟩
    apply div_nonpos_of_nonpos_of_nonneg _ (by norm_num)
    linarith

/-! ## Remaining support lemmas -/

theorem mThirty_mono₁ (s t : List Char) : mThirty s ≤ mThirty (s ++ t) := by
  unfold mThirty
  rw [List.length_append]
  push_cast
  have : (0 : ℚ) ≤ t.length := Nat.cast_nonneg t.length
  linarith

theorem mThirty_mono₂ (s t : List Char) : mThirty t ≤ mThirty (s ++ t) := by
  unfold mThirty
  rw [List.length_append]
  push_cast
  have : (0 : ℚ) ≤ s.length := Nat.cast_nonneg s.length
  linarith

theorem layoutLines_nil (m : List Char → ℚ) : layoutLines m [] = [[]] := by
  unfold layoutLines
  rw [show ([] : List Char).map Char.toUpper = [] from rfl,
    show splitOnSpace [] = [[]] from rfl]
  simp only [wrapWords, List.nil_append, ne_eq, not_true_eq_false, and_false,
    if_false, List.cons_ne_self]
  rw [show trim [' '] = [] by decide]

/-! ## Claim theorems -/

/-- Claim C1: the layout uppercases the text, splits it on single spaces,
and accumulates words into a line buffer; a buffer is committed (trimmed)
exactly when appending the next word plus a trailing space makes the
measured width exceed 900px while the buffer is non-empty, the successor
buffer then starts with that word; the final non-empty buffer is committed
after the last word; and a word wider than 900px is never split mid-word
but appears as its own overflowing line (for any measure monotone under
concatenation on both sides). -/
theorem wrap_greedy_spec (m : List Char → ℚ)
    (hm₁ : ∀ s t, m s ≤ m (s ++ t)) (hm₂ : ∀ s t, m t ≤ m (s ++ t)) :
    (∀ text, layoutLines m text =
        wrapWords m 900 (splitOnSpace (text.map Char.toUpper)) [])
    ∧ (∀ (w : List Char) (ws : List (List Char)) (buf : List Char),
        900 < m (buf ++ w ++ [' ']) → buf ≠ [] →
          wrapWords m 900 (w :: ws) buf =
            trim buf :: wrapWords m 900 ws (w ++ [' ']))
    ∧ (∀ (w : List Char) (ws : List (List Char)) (buf : List Char),
        ¬(900 < m (buf ++ w ++ [' ']) ∧ buf ≠ []) →
          wrapWords m 900 (w :: ws) buf =
            wrapWords m 900 ws (buf ++ w ++ [' ']))
    ∧ (∀ buf : List Char, buf ≠ [] → wrapWords m 900 [] buf = [trim buf])
    ∧ wrapWords m 900 [] [] = []
    ∧ (∀ (text w : List Char), w ∈ splitOnSpace (text.map Char.toUpper) →
        (∀ c ∈ w, c.isWhitespace = false) → 900 < m w →
          w ∈ layoutLines m text) := by
  refine ⟨fun _ => rfl, ?_, ?_, ?_, ?_, ?_⟩
  · intro w ws buf h1 h2
    rw [wrapWords, if_pos ⟨h1, h2⟩]
  · intro w ws buf h
    rw [wrapWords, if_neg h]
  · intro buf h
    rw [wrapWords, if_neg h]
  · rw [wrapWords, if_pos rfl]
  · intro text w hmem hclean hwide
    exact wrapWords_mem_overlong hm₁ hm₂ hwide hclean _ [] hmem

/-- Claim C1 witness: with the 30px-per-character measure, a 31-character
word (930px wide) preceded by a short word appears as its own line. -/
theorem wrap_greedy_spec_witness :
    List.replicate 31 'A' ∈
      layoutLines mThirty ('h' :: 'i' :: ' ' :: List.replicate 31 'a') :=
  (wrap_greedy_spec mThirty mThirty_mono₁ mThirty_mono₂).2.2.2.2.2
    ('h' :: 'i' :: ' ' :: List.replicate 31 'a') (List.replicate 31 'A')
    (by decide) (by decide) (by norm_num [mThirty])

/-- Claim C2: concatenating, in line order, the whitespace-run words of
the wrapped lines yields exactly the word sequence of the uppercased
text, for every measure; and a single word (a text whose uppercased form
contains no space) occupies exactly one line. -/
theorem wrap_round_trip (m : List Char → ℚ) :
    (∀ text, ((layoutLines m text).map wordsOf).flatten =
        wordsOf (text.map Char.toUpper))
    ∧ (∀ text, (' ' : Char) ∉ text.map Char.toUpper →
        layoutLines m text = [trim (text.map Char.toUpper)]) :=
  ⟨layoutLines_words m, layoutLines_single_word m⟩

/-- Claim C2 witness: a concrete single word is laid out as exactly one
line. -/
theorem wrap_round_trip_witness :
    layoutLines mThirty ['a', 'b'] = [trim ['A', 'B']] :=
  (wrap_round_trip mThirty).2 ['a', 'b'] (by decide)

/-- Claim C3: a rendered word is drawn in the highlight color iff the
normalized forms of the word and of the configured highlighted word are
both non-empty and equal; an empty or whitespace-only setting highlights
nothing; and every word draw of the render plan is colored by exactly
this decision. -/
theorem highlight_correct :
    (∀ hl w : List Char, highlightDecision hl w = true ↔
      (normalizeWord w ≠ [] ∧ normalizeWord hl ≠ [] ∧
        normalizeWord w = normalizeWord hl))
    ∧ (∀ hl : List Char, (∀ c ∈ hl, c.isWhitespace = true) →
        ∀ w, highlightDecision hl w = false)
    ∧ (∀ (g : Settings) (q : Quote) (m : List Char → ℚ),
        ∀ d ∈ (renderPlan g q m).wordDraws,
          d.highlighted = highlightDecision q.highlightedWord d.word ∧
            d.color = (if d.highlighted then g.highlightColor else whiteColor)) := by
  refine ⟨highlightDecision_iff, ?_, ?_⟩
  · intro hl hws w
    cases h : highlightDecision hl w with
    | false => rfl
    | true =>
      obtain ⟨-, hnh, -⟩ := (highlightDecision_iff hl w).mp h
      exact absurd (normalizeWord_all_ws hws) hnh
  · intro g q m d hd
    simp only [renderPlan] at hd
    rw [List.mem_flatten] at hd
    obtain ⟨l, hl, hdl⟩ := hd
    rw [List.mem_map] at hl
    obtain ⟨p, hp, rfl⟩ := hl
    unfold lineDraws at hdl
    exact wordDrawsAux_colors m q.highlightedWord g.highlightColor _ _ _ d hdl

/-- Claim C3 witness: a whitespace-only highlighted-word setting
highlights nothing. -/
theorem highlight_correct_witness :
    highlightDecision [' '] ['A'] = false :=
  highlight_correct.2.1 [' '] (by decide) ['A']

/-- Claim C4: normalization erases trailing punctuation, internal
apostrophes and letter case: `Don't`, `dont` and `DON'T,` all normalize
to `DONT`. -/
theorem normalize_apostrophe_law :
    normalizeWord ['D', 'o', 'n', apos, 't'] = normalizeWord ['d', 'o', 'n', 't']
    ∧ normalizeWord ['D', 'O', 'N', apos, 'T', ','] =
        normalizeWord ['d', 'o', 'n', 't']
    ∧ normalizeWord ['d', 'o', 'n', 't'] = ['D', 'O', 'N', 'T'] := by
  refine ⟨?_, ?_, ?_⟩ <;> decide

/-- Claim C5: for `gradientStart` in `[0,1]` the stop offsets
`(0, gradientStart, 1)` are non-decreasing; BOTTOM builds
transparent/transparent/alpha-0.85 stops, TOP the reverse; the default
when no per-quote value is supplied is `0.5`; and the render plan uses
exactly these stops. -/
theorem gradient_stops_spec (gs : ℚ) (h0 : 0 ≤ gs) (h1 : gs ≤ 1) :
    (∀ pos, List.Chain' (· ≤ ·) ((gradientStops pos gs).map GradientStop.offset))
    ∧ gradientStops .bottom gs =
        [⟨0, transparentBlack⟩, ⟨gs, transparentBlack⟩, ⟨1, darkBlack⟩]
    ∧ gradientStops .top gs =
        [⟨0, darkBlack⟩, ⟨gs, transparentBlack⟩, ⟨1, transparentBlack⟩]
    ∧ resolveGradientStart none = 1 / 2
    ∧ (∀ (g : Settings) (q : Quote) (m : List Char → ℚ),
        (renderPlan g q m).gradient =
          gradientStops q.textPosition (resolveGradientStart q.gradientStart)) := by
  refine ⟨?_, rfl, rfl, rfl, fun g q m => rfl⟩
  intro pos
  cases pos <;> simp [gradientStops, h0, h1]

/-- Claim C5 witness: the BOTTOM stops at `gradientStart = 0.3`. -/
theorem gradient_stops_spec_witness :
    gradientStops .bottom (3 / 10) =
      [⟨0, transparentBlack⟩, ⟨3 / 10, transparentBlack⟩, ⟨1, darkBlack⟩] :=
  (gradient_stops_spec (3 / 10) (by norm_num) (by norm_num)).2.1

/-- Claim C6: the line height is the resolved font size times 1.3; TOP
places the first line center at `200 + lineHeight/2`, BOTTOM at
`1350 - 200 - lineCount * lineHeight`; and line `i` sits at
`startY + i * lineHeight`. -/
theorem vertical_placement_spec (g : Settings) (q : Quote) (m : List Char → ℚ) :
    (renderPlan g q m).lineHeight = effectiveFontSize g q * (13 / 10)
    ∧ (q.textPosition = .top →
        (renderPlan g q m).startY = 200 + (renderPlan g q m).lineHeight / 2)
    ∧ (q.textPosition = .bottom →
        (renderPlan g q m).startY =
          1350 - 200 -
            ((renderPlan g q m).lines.length : ℚ) * (renderPlan g q m).lineHeight)
    ∧ (∀ i (hi : i < (renderPlan g q m).lineYs.length),
        (renderPlan g q m).lineYs.get ⟨i, hi⟩ =
          (renderPlan g q m).startY + (i : ℚ) * (renderPlan g q m).lineHeight) := by
  refine ⟨rfl, ?_, ?_, ?_⟩
  · intro h
    simp [renderPlan, h]
  · intro h
    simp [renderPlan, h]
  · intro i hi
    simp only [renderPlan] at hi ⊢
    simp only [List.get_eq_getElem, List.getElem_map, List.getElem_range]

/-- Claim C6 witness: the BOTTOM start-Y equation at concrete inputs. -/
theorem vertical_placement_spec_witness :
    (renderPlan gConc qConc mThirty).startY =
      1350 - 200 -
        ((renderPlan gConc qConc mThirty).lines.length : ℚ) *
          (renderPlan gConc qConc mThirty).lineHeight :=
  (vertical_placement_spec gConc qConc mThirty).2.2.1 rfl

/-- Claim C7 counterexample: for a 2000x1000 image the fallback cover
crop's centering offset `offsetX` is negative (here -810), so the claimed
non-negativity fails. -/
theorem cover_crop_offset_counterexample :
    ¬(0 ≤ (fallbackCrop 2000 1000).offsetX) := by
  have h : (fallbackCrop 2000 1000).offsetX = -810 := by
    norm_num [fallbackCrop]
  rw [h]
  norm_num

/-- Claim C7 (amended): for every image with positive dimensions and no
supplied crop rectangle, the fallback crop's draw rectangle is at least
1080 wide and at least 1350 tall, and the centering offsets are
non-positive; the render plan uses exactly this rectangle. -/
theorem cover_crop_bounds (w h : ℚ) (hw : 0 < w) (hh : 0 < h) :
    1080 ≤ (fallbackCrop w h).drawWidth
    ∧ 1350 ≤ (fallbackCrop w h).drawHeight
    ∧ (fallbackCrop w h).offsetX ≤ 0
    ∧ (fallbackCrop w h).offsetY ≤ 0
    ∧ (∀ (g : Settings) (q : Quote) (m : List Char → ℚ),
        q.cropData = none → q.image = ⟨w, h⟩ →
          (renderPlan g q m).background = .cover (fallbackCrop w h)) := by
  have hb := fallbackCropNoGuards_bounds w h hw hh
  rw [← fallbackCrop_eq_noGuards w h hw hh] at hb
  refine ⟨hb.1, hb.2.1, hb.2.2.1, hb.2.2.2, ?_⟩
  intro g q m hcrop himg
  simp [renderPlan, hcrop, himg]

/-- Claim C7 (amended) witness: the bounds at a concrete 2000x1000
image. -/
theorem cover_crop_bounds_witness :
    1080 ≤ (fallbackCrop 2000 1000).drawWidth
    ∧ 1350 ≤ (fallbackCrop 2000 1000).drawHeight := by
  have h := cover_crop_bounds 2000 1000 (by norm_num) (by norm_num)
  exact ⟨h.1, h.2.1⟩

/-- Claim C8 counterexample: for empty quote text the layout is one line
holding the empty string, not zero lines. -/
theorem empty_text_counterexample :
    layoutLines mThirty [] = [[]] ∧ layoutLines mThirty [] ≠ [] := by
  refine ⟨layoutLines_nil mThirty, ?_⟩
  rw [layoutLines_nil mThirty]
  simp

/-- Claim C8 (amended): for an empty quote string the layout degrades to
a single empty line (not zero lines); since the line list is non-empty
the opening quotation mark is still drawn, the artist-name caption is
still drawn, and the (total) render function produces a full plan. -/
theorem empty_text_render (g : Settings) (q : Quote) (m : List Char → ℚ)
    (ht : q.text = []) :
    (renderPlan g q m).lines = [[]]
    ∧ (renderPlan g q m).lines.length = 1
    ∧ (renderPlan g q m).quoteMark.isSome = true
    ∧ (renderPlan g q m).caption =
        ⟨g.artistName.map Char.toUpper, 540, 1250⟩ := by
  refine ⟨?_, ?_, ?_, ?_⟩
  · simp [renderPlan, ht, layoutLines_nil]
  · simp [renderPlan, ht, layoutLines_nil]
  · simp [renderPlan, ht, layoutLines_nil]
  · simp [renderPlan, ht, layoutLines_nil]
    norm_num

/-- Claim C8 (amended) witness: the empty-text plan at concrete inputs. -/
theorem empty_text_render_witness :
    (renderPlan gConc qEmptyConc mThirty).lines = [[]] :=
  (empty_text_render gConc qEmptyConc mThirty rfl).1

/-- Claim C9: the render plan is a pure function of the request fields
and the measurement function: two requests equal on every field produce
identical plans, and re-rendering the same request reproduces the same
plan. -/
theorem render_deterministic (g g' : Settings) (q q' : Quote)
    (m : List Char → ℚ)
    (htext : q.text = q'.text)
    (hhl : q.highlightedWord = q'.highlightedWord)
    (himg : q.image = q'.image)
    (hpos : q.textPosition = q'.textPosition)
    (hfs : q.fontSize = q'.fontSize)
    (hgs : q.gradientStart = q'.gradientStart)
    (hcrop : q.cropData = q'.cropData)
    (hartist : g.artistName = g'.artistName)
    (hcolor : g.highlightColor = g'.highlightColor)
    (hfont : g.selectedFont = g'.selectedFont)
    (hgfs : g.fontSize = g'.fontSize) :
    renderPlan g q m = renderPlan g' q' m
    ∧ renderPlan g q m = renderPlan g q m := by
  have hq : q = q' := by cases q; cases q'; simp_all
  have hg : g = g' := by cases g; cases g'; simp_all
  exact ⟨by rw [hq, hg], rfl⟩

/-- Claim C9 witness: re-rendering the concrete request reproduces the
plan. -/
theorem render_deterministic_witness :
    renderPlan gConc qConc mThirty = renderPlan gConc qConc mThirty :=
  (render_deterministic gConc gConc qConc qConc mThirty
    rfl rfl rfl rfl rfl rfl rfl rfl rfl rfl rfl).1

/-- Claim C10: for every image with positive dimensions, neither `ensure
minimum size` guard block ever fires, so the fallback cover crop with
both guard blocks removed is extensionally equal to the original, and
the aspect-ratio branch alone already covers the canvas. -/
theorem guard_blocks_redundant (w h : ℚ) (hw : 0 < w) (hh : 0 < h) :
    fallbackCrop w h = fallbackCropNoGuards w h
    ∧ 1080 ≤ (fallbackCropNoGuards w h).drawWidth
    ∧ 1350 ≤ (fallbackCropNoGuards w h).drawHeight := by
  have hb := fallbackCropNoGuards_bounds w h hw hh
  exact ⟨fallbackCrop_eq_noGuards w h hw hh, hb.1, hb.2.1⟩

/-- Claim C10 witness: guard-free equality at a concrete portrait
image. -/
theorem guard_blocks_redundant_witness :
    fallbackCrop 500 1000 = fallbackCropNoGuards 500 1000 :=
  (guard_blocks_redundant 500 1000 (by norm_num) (by norm_num)).1

end QuoteGen
